import Mathlib

/-!
Shallow embedding of the BOQ comparator application (`src/app.py`).

A pandas `DataFrame` is modelled as a `Table`: an ordered list of column
labels (`header`) together with an ordered list of rows, each row an ordered
list of cells.  Every dataframe produced by the script carries the default
range index `0, 1, …, nRows-1` (fresh after `read_csv`/`read_excel`, after
`pd.merge`, and preserved by `rename`), so the index is represented
implicitly by row position: `pd.concat(axis=1)` aligning two range indexes
is padding the shorter table with nulls up to the longer one's length.

Cell values are dynamic (`str` / numbers / NaN).  pandas hash-joins treat
NaN keys as equal to each other, so `Cell.null` compares equal to itself,
matching the merge semantics.  User-visible `st.error` / `st.warning`
output is modelled as a list of emitted message strings.
-/

/-- A dynamically typed cell of a dataframe: a string, a number, or a
missing value (NaN). -/
inductive Cell where
  | str (s : String)
  | num (n : Int)
  | null
deriving DecidableEq, Repr

/-- A dataframe: ordered column labels plus ordered rows of cells. -/
structure Table where
  header : List String
  rows : List (List Cell)
deriving DecidableEq, Repr

/-- Number of rows, `len(df)`. -/
def Table.nRows (t : Table) : Nat := t.rows.length

/-- Number of columns, `len(df.columns)`. -/
def Table.nCols (t : Table) : Nat := t.header.length

/-- Models `pd.DataFrame()`: the zero-row, zero-column table. -/
def Table.empty : Table := { header := [], rows := [] }

/-- Models `df.empty`: true when any axis has length 0. -/
def Table.isEmpty (t : Table) : Bool := t.nRows == 0 || t.nCols == 0

/-- An uploaded file: its name together with the outcome of parsing it
(`pd.read_csv` / `pd.read_excel` succeed with a table or raise). -/
structure UpFile where
  name : String
  parse : Except String Table

/-- Models `normalize_name` (app.py line 47). -/
def normalize_name (idx : Nat) : String := "Contractor_" ++ toString idx

/-- Models `load_table` (app.py lines 51-61): on a parse exception it emits
an error message naming the file and yields the empty dataframe; the second
component collects the user-visible messages. -/
def load_table (f : UpFile) : Table × List String :=
  match f.parse with
  | Except.ok df => (df, [])
  | Except.error e => (Table.empty, ["Could not read " ++ f.name ++ ": " ++ e])

/-- ASCII lower-casing of one character, as Python `str.lower` acts on the
ASCII column labels used here. -/
def lcChar (c : Char) : Char :=
  if 'A' ≤ c ∧ c ≤ 'Z' then Char.ofNat (c.toNat + 32) else c

/-- Lower-cased character list of a string, modelling `c.lower()`. -/
def lowerStr (s : String) : List Char := s.data.map lcChar

/-- Does `pat` occur as a contiguous run inside `s`?  Models Python's
substring test `pat in s`. -/
def strStartsWith : List Char → List Char → Bool
  | [], _ => true
  | _ :: _, [] => false
  | p :: ps, c :: cs => p == c && strStartsWith ps cs

/-- Substring occurrence test over character lists. -/
def strHasSub (pat : List Char) : List Char → Bool
  | [] => strStartsWith pat []
  | c :: cs => strStartsWith pat (c :: cs) || strHasSub pat cs

/-- Models the test `"rate" in c.lower()` (app.py line 78). -/
def substrRate (c : String) : Bool := strHasSub "rate".data (lowerStr c)

/-- Models `df.rename(columns={old: new})` on the label list: every
occurrence of the label `old` becomes `new`. -/
def renameAll (old new : String) (h : List String) : List String :=
  h.map (fun c => if c = old then new else c)

/-- Models the loop of app.py lines 77-79: iterate over the original labels
and, for each one containing "rate" case-insensitively, rename that label to
"RATE" in the current header. -/
def fuzzyLoop : List String → List String → List String
  | [], h => h
  | c :: cs, h => fuzzyLoop cs (if substrRate c then renameAll c "RATE" h else h)

/-- Models app.py lines 76-79: the fuzzy RATE scan runs only when no column
is exactly named "RATE". -/
def fuzzyRate (h : List String) : List String :=
  if "RATE" ∈ h then h else fuzzyLoop h h

/-- Models the `rename_map` built at app.py lines 80-84. -/
def buildRenameMap (i : Nat) (h : List String) : List (String × String) :=
  (if "RATE" ∈ h then [("RATE", normalize_name i ++ "_RATE")] else []) ++
  (if "AMOUNT" ∈ h then [("AMOUNT", normalize_name i ++ "_AMOUNT")] else [])

/-- Models `df.rename(columns=rename_map)` (app.py line 85): each label is
replaced by its image under the map when present. -/
def applyRename (m : List (String × String)) (h : List String) : List String :=
  h.map (fun c => (m.lookup c).getD c)

/-- The whole column-normalization of app.py lines 76-85 on a header. -/
def normalizeHeader (i : Nat) (h : List String) : List String :=
  let h1 := fuzzyRate h
  applyRename (buildRenameMap i h1) h1

/-- Normalization of one loaded dataframe for contractor index `i`. -/
def normalizeFrame (i : Nat) (df : Table) : Table :=
  { header := normalizeHeader i df.header, rows := df.rows }

/-- Models the loading loop of app.py lines 66-87: walk the uploads carrying
the 1-based `enumerate` counter, load each, skip empty results, normalize the
rest; returns the frame list and the emitted messages. -/
def buildFrames : Nat → List UpFile → List Table × List String
  | _, [] => ([], [])
  | i, f :: rest =>
    let ld := load_table f
    let tail := buildFrames (i + 1) rest
    if (ld.1).isEmpty then (tail.1, ld.2 ++ tail.2)
    else (normalizeFrame i ld.1 :: tail.1, ld.2 ++ tail.2)

/-- Models the key computation of app.py lines 96-101 for one fold step. -/
def keysFor (mode : String) (combined part : Table) : List String :=
  if mode = "ITEM + DESCRIPTION" then
    (["ITEM", "DESCRIPTION"]).filter
      (fun k => decide (k ∈ combined.header) && decide (k ∈ part.header))
  else if mode = "DESCRIPTION only" then
    if "DESCRIPTION" ∈ combined.header ∧ "DESCRIPTION" ∈ part.header
    then ["DESCRIPTION"] else []
  else
    if "ITEM" ∈ combined.header ∧ "ITEM" ∈ part.header
    then ["ITEM"] else []

/-- First position of a label in a header, `Index.get_loc` style. -/
def colIdx (h : List String) (c : String) : Option Nat :=
  h.findIdx? (fun x => x = c)

/-- Cell of a row at an optional column position (null when absent). -/
def cellAt (row : List Cell) : Option Nat → Cell
  | some i => row.getD i Cell.null
  | none => Cell.null

/-- Key tuple of a row of table `t` under the key labels `keys`. -/
def keyTuple (t : Table) (keys : List String) (row : List Cell) : List Cell :=
  keys.map (fun k => cellAt row (colIdx t.header k))

/-- Do a left row and a right row agree on every key column? -/
def rowMatches (left right : Table) (keys : List String)
    (lr rr : List Cell) : Bool :=
  decide (keyTuple left keys lr = keyTuple right keys rr)

/-- Cells of a right row at its non-key columns, in column order. -/
def nonKeyCells (right : Table) (keys : List String) (rr : List Cell) : List Cell :=
  ((List.range right.header.length).filter
    (fun j => decide (right.header.getD j "" ∉ keys))).map
    (fun j => rr.getD j Cell.null)

/-- Output header of `pd.merge(left, right, on=keys, how="outer")`: left
columns (overlapping non-key labels suffixed `_x`), then right non-key
columns (overlapping labels suffixed `_y`). -/
def joinHeader (left right : Table) (keys : List String) : List String :=
  left.header.map
    (fun c => if c ∉ keys ∧ c ∈ right.header then c ++ "_x" else c) ++
  (right.header.filterMap
    (fun c => if c ∈ keys then none
              else some (if c ∈ left.header then c ++ "_y" else c)))

/-- Row built for a right row with no left match: key cells are taken from
the right row, other left-side cells are null. -/
def rightOnlyRow (left right : Table) (keys : List String) (rr : List Cell) : List Cell :=
  left.header.map
    (fun c => if c ∈ keys then cellAt rr (colIdx right.header c) else Cell.null) ++
  nonKeyCells right keys rr

/-- Models `pd.merge(left, right, on=keys, how="outer")` row-wise: each left
row pairs with every key-matching right row (or survives alone padded with
nulls), then the unmatched right rows are appended. -/
def outerJoin (left right : Table) (keys : List String) : Table :=
  { header := joinHeader left right keys
    rows :=
      (left.rows.flatMap (fun lr =>
        let ms := right.rows.filter (fun rr => rowMatches left right keys lr rr)
        if ms.isEmpty then
          [lr ++ List.replicate (nonKeyCells right keys []).length Cell.null]
        else ms.map (fun rr => lr ++ nonKeyCells right keys rr))) ++
      ((right.rows.filter (fun rr =>
          !(left.rows.any (fun lr => rowMatches left right keys lr rr)))).map
        (fun rr => rightOnlyRow left right keys rr)) }

/-- Models `pd.concat([left, right], axis=1)` on two range-indexed frames:
side-by-side concatenation padded with nulls to the longer row count. -/
def concatCols (left right : Table) : Table :=
  { header := left.header ++ right.header
    rows :=
      (List.range (max left.nRows right.nRows)).map (fun i =>
        left.rows.getD i (List.replicate left.nCols Cell.null) ++
        right.rows.getD i (List.replicate right.nCols Cell.null)) }

/-- One fold step of the merge loop, app.py lines 96-106. -/
def mergeStep (mode : String) (combined part : Table) : Table :=
  let keys := keysFor mode combined part
  if keys.isEmpty then concatCols combined part
  else outerJoin combined part keys

/-- Models `merge_contractors` (app.py lines 64-108): build the frames, warn
and return the empty table when none survive, otherwise left-fold the merge
step over them. -/
def merge_contractors (files : List UpFile) (mode : String) : Table × List String :=
  match buildFrames 1 files with
  | ([], msgs) => (Table.empty, msgs ++ ["No valid files to merge!"])
  | (first :: rest, msgs) => (List.foldl (mergeStep mode) first rest, msgs)

/-- Update the value stored for a key in the association list modelling the
Python `seen` dict. -/
def setv : List (String × Nat) → String → Nat → List (String × Nat)
  | [], _, _ => []
  | (k, w) :: rest, c, v =>
    if k = c then (c, v) :: setv rest c v else (k, w) :: setv rest c v

/-- Models the loop of `make_columns_unique` (app.py lines 113-121): first
occurrence of a label is kept, the n-th repeat becomes `label_n`. -/
def makeUniqueGo : List String → List (String × Nat) → List String
  | [], _ => []
  | c :: rest, seen =>
    match seen.lookup c with
    | none => c :: makeUniqueGo rest ((c, 0) :: seen)
    | some n => (c ++ "_" ++ toString (n + 1)) :: makeUniqueGo rest (setv seen c (n + 1))

/-- Deduplicated label list of `make_columns_unique`. -/
def makeUniqueLabels (h : List String) : List String := makeUniqueGo h []

/-- Models `make_columns_unique` (app.py lines 111-123): only the column
labels are rewritten. -/
def make_columns_unique (df : Table) : Table :=
  { header := makeUniqueLabels df.header, rows := df.rows }

/-! ### Arithmetic helpers for row counts -/

/-- Sum of a map distributes over pointwise addition. -/
theorem sum_map_add {α : Type} (l : List α) (f g : α → Nat) :
    (l.map (fun x => f x + g x)).sum = (l.map f).sum + (l.map g).sum := by
  induction l with
  | nil => rfl
  | cons a t ih => simp only [List.map_cons, List.sum_cons, ih]; omega

/-- Count of a boolean predicate as a sum of indicator values. -/
theorem countP_as_sum {α : Type} (l : List α) (p : α → Bool) :
    l.countP p = (l.map (fun x => if p x then 1 else 0)).sum := by
  induction l with
  | nil => rfl
  | cons a t ih =>
    rw [List.countP_cons, List.map_cons, List.sum_cons, ih]
    omega

/-- Exchanging the order of a double count: summing over the left list the
matches in the right list equals summing over the right list the matches in
the left list. -/
theorem sum_countP_swap {α β : Type} (L : List α) (R : List β) (p : α → β → Bool) :
    (L.map (fun a => R.countP (p a))).sum =
      (R.map (fun b => L.countP (fun a => p a b))).sum := by
  induction L with
  | nil =>
    simp only [List.map_nil, List.sum_nil, List.countP_nil]
    exact (List.sum_eq_zero (by simp)).symm
  | cons a t ih =>
    simp only [List.map_cons, List.sum_cons, ih]
    have hrhs : (R.map (fun b => List.countP (fun a' => p a' b) (a :: t))).sum =
        (R.map (fun b => (if p a b then 1 else 0) + List.countP (fun a' => p a' b) t)).sum := by
      apply congrArg
      apply List.map_congr_left
      intro b _
      rw [List.countP_cons]
      omega
    rw [hrhs, sum_map_add, ← countP_as_sum]

/-- A list's length bounds the sum of a map whose terms are all positive. -/
theorem len_le_sum_map {α : Type} (l : List α) (f : α → Nat)
    (h : ∀ x ∈ l, 1 ≤ f x) : l.length ≤ (l.map f).sum := by
  induction l with
  | nil => simp
  | cons a t ih =>
    simp only [List.map_cons, List.sum_cons, List.length_cons]
    have h1 := h a (by simp)
    have h2 := ih (fun x hx => h x (by simp [hx]))
    omega

/-- Sum of the constant-one map is the length. -/
theorem sum_map_one {α : Type} (l : List α) : (l.map (fun _ => 1)).sum = l.length := by
  induction l with
  | nil => rfl
  | cons a t ih => simp only [List.map_cons, List.sum_cons, ih, List.length_cons]; omega

/-- Length of a flat map as a sum of branch lengths. -/
theorem length_flatMap_eq {α β : Type} (l : List α) (f : α → List β) :
    (l.flatMap f).length = (l.map (fun a => (f a).length)).sum := by
  rw [List.flatMap_def, List.length_flatten, List.map_map]
  rfl

/-! ### Row count of the merge step -/

/-- Number of right rows matching a given left row on the keys. -/
def matchCnt (left right : Table) (keys : List String) (lr : List Cell) : Nat :=
  (right.rows.filter (fun rr => rowMatches left right keys lr rr)).length

/-- Row count of the outer join: every left row contributes one row per
matching right row (or one padded row when unmatched), and the unmatched
right rows are appended. -/
theorem outerJoin_nRows (left right : Table) (keys : List String) :
    (outerJoin left right keys).nRows =
      (left.rows.map (fun lr => max 1 (matchCnt left right keys lr))).sum +
      (right.rows.filter (fun rr =>
        !(left.rows.any (fun lr => rowMatches left right keys lr rr)))).length := by
  show ((_ ++ _ : List (List Cell))).length = _
  rw [List.length_append, length_flatMap_eq, List.length_map]
  congr 1
  apply congrArg
  apply List.map_congr_left
  intro lr _
  by_cases hempty :
      (right.rows.filter (fun rr => rowMatches left right keys lr rr)).isEmpty = true
  · rw [if_pos hempty]
    have h0 : matchCnt left right keys lr = 0 := by
      unfold matchCnt
      rw [List.isEmpty_iff] at hempty
      simp [hempty]
    simp [h0]
  · rw [if_neg hempty]
    rw [List.length_map]
    have hpos : 1 ≤ matchCnt left right keys lr := by
      unfold matchCnt
      have hne : right.rows.filter (fun rr => rowMatches left right keys lr rr) ≠ [] := by
        intro h0
        exact hempty (by simp [h0])
      have := List.length_pos.mpr hne
      omega
    show matchCnt left right keys lr = _
    omega

/-- Row count of the side-by-side concatenation: the longer of the two. -/
theorem concatCols_nRows (left right : Table) :
    (concatCols left right).nRows = max left.nRows right.nRows := by
  show (List.map _ _).length = _
  rw [List.length_map, List.length_range]

/-- The outer join keeps at least one row per left row. -/
theorem outerJoin_nRows_ge_left (left right : Table) (keys : List String) :
    left.nRows ≤ (outerJoin left right keys).nRows := by
  rw [outerJoin_nRows]
  have := len_le_sum_map left.rows
    (fun lr => max 1 (matchCnt left right keys lr)) (fun x _ => Nat.le_max_left _ _)
  exact Nat.le_trans this (Nat.le_add_right _ _)

/-- The outer join keeps at least one row per right row. -/
theorem outerJoin_nRows_ge_right (left right : Table) (keys : List String) :
    right.nRows ≤ (outerJoin left right keys).nRows := by
  rw [outerJoin_nRows]
  have h1 : (left.rows.map (fun lr => matchCnt left right keys lr)).sum ≤
      (left.rows.map (fun lr => max 1 (matchCnt left right keys lr))).sum :=
    List.sum_le_sum (fun lr _ => Nat.le_max_right _ _)
  have h2 : (left.rows.map (fun lr => matchCnt left right keys lr)).sum =
      (right.rows.map (fun rr =>
        left.rows.countP (fun lr => rowMatches left right keys lr rr))).sum := by
    have := sum_countP_swap left.rows right.rows (fun lr rr => rowMatches left right keys lr rr)
    rw [← this]
    apply congrArg
    apply List.map_congr_left
    intro lr _
    unfold matchCnt
    rw [List.countP_eq_length_filter]
  have h3 : right.rows.countP (fun rr =>
        left.rows.any (fun lr => rowMatches left right keys lr rr)) ≤
      (right.rows.map (fun rr =>
        left.rows.countP (fun lr => rowMatches left right keys lr rr))).sum := by
    rw [countP_as_sum]
    apply List.sum_le_sum
    intro rr _
    by_cases hany : left.rows.any (fun lr => rowMatches left right keys lr rr) = true
    · rw [if_pos hany]
      rcases List.any_eq_true.mp hany with ⟨lr, hmem, hm⟩
      exact List.countP_pos_iff.mpr ⟨lr, hmem, hm⟩
    · rw [if_neg hany]
      exact Nat.zero_le _
  have h4 : right.nRows =
      right.rows.countP (fun rr =>
        left.rows.any (fun lr => rowMatches left right keys lr rr)) +
      right.rows.countP (fun rr =>
        !(left.rows.any (fun lr => rowMatches left right keys lr rr))) := by
    have hfun : (fun rr => !(left.rows.any (fun lr => rowMatches left right keys lr rr))) =
        (fun rr => decide ¬(left.rows.any (fun lr => rowMatches left right keys lr rr) = true)) := by
      funext rr
      cases hq : left.rows.any (fun lr => rowMatches left right keys lr rr) <;> simp [hq]
    rw [hfun]
    exact List.length_eq_countP_add_countP
      (p := fun rr => left.rows.any (fun lr => rowMatches left right keys lr rr)) right.rows
  have h5 : (right.rows.filter (fun rr =>
        !(left.rows.any (fun lr => rowMatches left right keys lr rr)))).length =
      right.rows.countP (fun rr =>
        !(left.rows.any (fun lr => rowMatches left right keys lr rr))) :=
    by rw [List.countP_eq_length_filter]
  omega

/-- The merge step never loses rows relative to the left accumulator. -/
theorem mergeStep_nRows_ge_left (mode : String) (combined part : Table) :
    combined.nRows ≤ (mergeStep mode combined part).nRows := by
  unfold mergeStep
  by_cases hk : (keysFor mode combined part).isEmpty = true
  · rw [if_pos hk, concatCols_nRows]
    exact Nat.le_max_left _ _
  · rw [if_neg hk]
    exact outerJoin_nRows_ge_left _ _ _

/-- A filter whose accepted elements all share one key value retains at most
one element of a list whose key values are pairwise distinct. -/
theorem filter_len_le_one {β γ : Type} (l : List β) (q : β → Bool) (t : β → γ)
    (hpair : l.Pairwise (fun x y => t x ≠ t y))
    (hq : ∀ x y, q x = true → q y = true → t x = t y) :
    (l.filter q).length ≤ 1 := by
  induction l with
  | nil => simp
  | cons a rest ih =>
    cases hpair with
    | cons ha hrest =>
      by_cases hqa : q a = true
      · rw [List.filter_cons_of_pos hqa]
        have hnil : rest.filter q = [] := by
          rw [List.filter_eq_nil_iff]
          intro x hx hqx
          exact ha x hx (hq a x hqa hqx)
        rw [hnil]
        simp
      · rw [List.filter_cons_of_neg hqa]
        exact ih hrest

/-- When the right table has pairwise-distinct key tuples, the outer join
has at most as many rows as the two inputs together. -/
theorem outerJoin_nRows_le_sum (left right : Table) (keys : List String)
    (huniq : right.rows.Pairwise (fun r1 r2 =>
      keyTuple right keys r1 ≠ keyTuple right keys r2)) :
    (outerJoin left right keys).nRows ≤ left.nRows + right.nRows := by
  rw [outerJoin_nRows]
  have hm1 : ∀ lr ∈ left.rows, max 1 (matchCnt left right keys lr) = 1 := by
    intro lr _
    have hle : matchCnt left right keys lr ≤ 1 := by
      unfold matchCnt
      apply filter_len_le_one right.rows _ (fun rr => keyTuple right keys rr) huniq
      intro x y hx hy
      unfold rowMatches at hx hy
      have hx' := of_decide_eq_true hx
      have hy' := of_decide_eq_true hy
      rw [← hx', ← hy']
    omega
  have hconst : (left.rows.map (fun lr => max 1 (matchCnt left right keys lr))).sum =
      (left.rows.map (fun _ => 1)).sum :=
    congrArg _ (List.map_congr_left hm1)
  rw [hconst, sum_map_one]
  have hfl := List.length_filter_le
    (fun rr => !(left.rows.any (fun lr => rowMatches left right keys lr rr))) right.rows
  unfold Table.nRows
  omega

/-- A fold step with a non-empty key set is the outer join on those keys. -/
theorem mergeStep_eq_outerJoin (mode : String) (combined part : Table)
    (hk : keysFor mode combined part ≠ []) :
    mergeStep mode combined part =
      outerJoin combined part (keysFor mode combined part) := by
  unfold mergeStep
  rw [if_neg]
  intro h
  exact hk (List.isEmpty_iff.mp h)

/-- The fold of merge steps never shrinks the accumulator's row count. -/
theorem foldl_mergeStep_mono (mode : String) :
    ∀ (rest : List Table) (acc : Table),
      acc.nRows ≤ (List.foldl (mergeStep mode) acc rest).nRows := by
  intro rest
  induction rest with
  | nil => intro acc; simp
  | cons p t ih =>
    intro acc
    exact le_trans (mergeStep_nRows_ge_left mode acc p) (ih _)

/-! ### Claims C1, C2, C6: row counts of the merge fold -/

/-- Left table with a duplicated ITEM key (two rows with ITEM = "1"). -/
def c1L : Table :=
  { header := ["ITEM", "A"]
    rows := [[Cell.str "1", Cell.num 1], [Cell.str "1", Cell.num 2]] }

/-- Right table with the same ITEM key three times. -/
def c1R : Table :=
  { header := ["ITEM", "B"]
    rows := [[Cell.str "1", Cell.num 3], [Cell.str "1", Cell.num 4],
             [Cell.str "1", Cell.num 5]] }

/-- Left table with distinct ITEM keys 1, 2. -/
def c1wL : Table :=
  { header := ["ITEM", "A"]
    rows := [[Cell.str "1", Cell.num 1], [Cell.str "2", Cell.num 2]] }

/-- Right table with distinct ITEM keys 2, 3. -/
def c1wR : Table :=
  { header := ["ITEM", "B"]
    rows := [[Cell.str "2", Cell.num 3], [Cell.str "3", Cell.num 4]] }

/-- C1, counterexample: at a fold step with a shared key column the claimed
upper bound fails — with ITEM duplicated twice on the left and three times
on the right, the outer join has 2 · 3 = 6 rows, exceeding the sum 2 + 3. -/
theorem C1_counterexample :
    keysFor "ITEM only" c1L c1R ≠ [] ∧
    ¬((mergeStep "ITEM only" c1L c1R).nRows ≤ c1L.nRows + c1R.nRows) := by
  decide

/-- C1 (amended): at any fold step whose key set is non-empty, the outer
join has at least max of the two inputs' row counts; the upper bound by
their sum holds provided the incoming table's key tuples are pairwise
distinct (without that, many-to-many key matches can exceed the sum). -/
theorem C1_outer_join_rowcount_bounds (mode : String) (combined part : Table)
    (hk : keysFor mode combined part ≠ []) :
    max combined.nRows part.nRows ≤ (mergeStep mode combined part).nRows ∧
    (part.rows.Pairwise (fun r1 r2 =>
        keyTuple part (keysFor mode combined part) r1 ≠
        keyTuple part (keysFor mode combined part) r2) →
      (mergeStep mode combined part).nRows ≤ combined.nRows + part.nRows) := by
  rw [mergeStep_eq_outerJoin mode combined part hk]
  constructor
  · exact Nat.max_le.mpr
      ⟨outerJoin_nRows_ge_left combined part _, outerJoin_nRows_ge_right combined part _⟩
  · intro hu
    exact outerJoin_nRows_le_sum combined part _ hu

/-- C1, witness: the bounds evaluated on a concrete one-to-one join. -/
theorem C1_outer_join_rowcount_bounds_witness :
    keysFor "ITEM only" c1wL c1wR ≠ [] ∧
    c1wR.rows.Pairwise (fun r1 r2 =>
      keyTuple c1wR (keysFor "ITEM only" c1wL c1wR) r1 ≠
      keyTuple c1wR (keysFor "ITEM only" c1wL c1wR) r2) ∧
    max c1wL.nRows c1wR.nRows ≤ (mergeStep "ITEM only" c1wL c1wR).nRows ∧
    (mergeStep "ITEM only" c1wL c1wR).nRows ≤ c1wL.nRows + c1wR.nRows :=
  ⟨by decide, by decide,
   (C1_outer_join_rowcount_bounds "ITEM only" c1wL c1wR (by decide)).1,
   (C1_outer_join_rowcount_bounds "ITEM only" c1wL c1wR (by decide)).2 (by decide)⟩

/-- C2: each fold step of `merge_contractors` — outer join when a key set
exists, column concatenation otherwise — yields at least as many rows as the
left accumulator had, so the row count is non-decreasing across the fold. -/
theorem C2_rowcount_monotone (mode : String) (combined part : Table) :
    combined.nRows ≤ (mergeStep mode combined part).nRows ∧
    ∀ (first : Table) (rest : List Table),
      first.nRows ≤ (List.foldl (mergeStep mode) first rest).nRows :=
  ⟨mergeStep_nRows_ge_left mode combined part,
   fun first rest => foldl_mergeStep_mono mode rest first⟩

/-- One-row accumulator with no shared key column. -/
def c6L : Table := { header := ["A"], rows := [[Cell.num 1]] }

/-- Two-row incoming table with no shared key column. -/
def c6R : Table := { header := ["B"], rows := [[Cell.num 2], [Cell.num 3]] }

/-- C6, counterexample: with an empty key set the concatenation aligns the
range indexes, so a 1-row accumulator and a 2-row incoming table give 2
rows, not the accumulator's row count 1. -/
theorem C6_counterexample :
    keysFor "ITEM only" c6L c6R = [] ∧
    (mergeStep "ITEM only" c6L c6R).nRows = 2 ∧ c6L.nRows = 1 := by
  decide

/-- C6 (amended): at a fold step whose computed key set is empty, the step
concatenates the two tables side by side, and the row count of the result
is the maximum of the two inputs' row counts (it equals the left-hand
accumulator's row count only when that side is at least as long). -/
theorem C6_concat_rowcount (mode : String) (combined part : Table)
    (hk : keysFor mode combined part = []) :
    mergeStep mode combined part = concatCols combined part ∧
    (mergeStep mode combined part).nRows = max combined.nRows part.nRows := by
  have hstep : mergeStep mode combined part = concatCols combined part := by
    unfold mergeStep
    rw [if_pos (List.isEmpty_iff.mpr hk)]
  exact ⟨hstep, by rw [hstep, concatCols_nRows]⟩

/-- C6, witness: the amended step behaviour on the concrete tables. -/
theorem C6_concat_rowcount_witness :
    keysFor "ITEM only" c6L c6R = [] ∧
    mergeStep "ITEM only" c6L c6R = concatCols c6L c6R ∧
    (mergeStep "ITEM only" c6L c6R).nRows = max c6L.nRows c6R.nRows :=
  ⟨by decide, (C6_concat_rowcount "ITEM only" c6L c6R (by decide)).1,
   (C6_concat_rowcount "ITEM only" c6L c6R (by decide)).2⟩

/-! ### Claims C7, C8, C9: loading, skipping and numbering of files -/

/-- C7: a file whose parse raises yields a zero-row, zero-column table plus
an error message containing the file's name, and the fold over the remaining
files is unaffected (the failed file contributes no frame). -/
theorem C7_parse_failure_recovery (f : UpFile) (e : String) (i : Nat)
    (rest : List UpFile) (hf : f.parse = Except.error e) :
    (load_table f).1.nRows = 0 ∧ (load_table f).1.nCols = 0 ∧
    (∃ m, (load_table f).2 = [m] ∧ ∃ pre suf, m = pre ++ f.name ++ suf) ∧
    (buildFrames i (f :: rest)).1 = (buildFrames (i + 1) rest).1 := by
  have hld : load_table f = (Table.empty, ["Could not read " ++ f.name ++ ": " ++ e]) := by
    unfold load_table
    rw [hf]
  refine ⟨by rw [hld]; rfl, by rw [hld]; rfl,
    ⟨"Could not read " ++ f.name ++ ": " ++ e, by rw [hld],
      "Could not read ", ": " ++ e, String.append_assoc _ _ _⟩, ?_⟩
  simp [buildFrames, hld, Table.isEmpty, Table.empty, Table.nRows, Table.nCols]

/-- An uploaded file whose parse fails. -/
def c7bad : UpFile := { name := "broken.xlsx", parse := Except.error "bad zip" }

/-- C7, witness: the recovery behaviour on a concrete failing file. -/
theorem C7_parse_failure_recovery_witness :
    c7bad.parse = Except.error "bad zip" ∧
    ((load_table c7bad).1.nRows = 0 ∧ (load_table c7bad).1.nCols = 0 ∧
     (∃ m, (load_table c7bad).2 = [m] ∧ ∃ pre suf, m = pre ++ c7bad.name ++ suf) ∧
     (buildFrames 1 [c7bad]).1 = (buildFrames 2 []).1) :=
  ⟨rfl, C7_parse_failure_recovery c7bad "bad zip" 1 [] rfl⟩

/-- When every file loads empty, no frame survives. -/
theorem buildFrames_all_empty :
    ∀ (files : List UpFile) (i : Nat),
      (∀ f ∈ files, ((load_table f).1).isEmpty = true) →
      (buildFrames i files).1 = [] := by
  intro files
  induction files with
  | nil => intro i _; rfl
  | cons f rest ih =>
    intro i h
    have hf := h f (by simp)
    simp only [buildFrames, hf, if_true]
    exact ih (i + 1) (fun g hg => h g (by simp [hg]))

/-- C8: when every uploaded file fails to load or loads empty, the merge
emits the "No valid files to merge!" warning and returns the empty table. -/
theorem C8_no_valid_files (files : List UpFile) (mode : String)
    (h : ∀ f ∈ files, ((load_table f).1).isEmpty = true) :
    (merge_contractors files mode).1 = Table.empty ∧
    "No valid files to merge!" ∈ (merge_contractors files mode).2 := by
  have hf := buildFrames_all_empty files 1 h
  rcases hbf : buildFrames 1 files with ⟨frames, msgs⟩
  rw [hbf] at hf
  subst hf
  have h1 : merge_contractors files mode =
      (Table.empty, msgs ++ ["No valid files to merge!"]) := by
    unfold merge_contractors
    rw [hbf]
  rw [h1]
  exact ⟨rfl, by simp⟩

/-- Uploads that all fail or load empty. -/
def c8files : List UpFile :=
  [{ name := "a.csv", parse := Except.error "oops" },
   { name := "b.csv", parse := Except.ok Table.empty }]

/-- C8, witness: the warning behaviour on concrete unusable uploads. -/
theorem C8_no_valid_files_witness :
    (∀ f ∈ c8files, ((load_table f).1).isEmpty = true) ∧
    (merge_contractors c8files "ITEM only").1 = Table.empty ∧
    "No valid files to merge!" ∈ (merge_contractors c8files "ITEM only").2 :=
  ⟨by decide, (C8_no_valid_files c8files "ITEM only" (by decide)).1,
   (C8_no_valid_files c8files "ITEM only" (by decide)).2⟩

/-- Position lemma behind C9: the file at 0-based position `i` (counting all
uploads, empty or not), when it loads non-empty, contributes the frame
normalized with contractor index `j + i`, where `j` is the starting counter. -/
theorem buildFrames_mem :
    ∀ (files : List UpFile) (j i : Nat) (h : i < files.length),
      ((load_table (files.get ⟨i, h⟩)).1).isEmpty = false →
      normalizeFrame (j + i) (load_table (files.get ⟨i, h⟩)).1 ∈
        (buildFrames j files).1 := by
  intro files
  induction files with
  | nil => intro j i h; exact absurd h (by simp)
  | cons f rest ih =>
    intro j i h hne
    cases i with
    | zero =>
      have hne' : ((load_table f).1).isEmpty = false := hne
      show normalizeFrame (j + 0) (load_table f).1 ∈ (buildFrames j (f :: rest)).1
      simp [buildFrames, hne']
    | succ k =>
      have hk : k < rest.length := by simpa using h
      have hne' : ((load_table (rest.get ⟨k, hk⟩)).1).isEmpty = false := hne
      have hmem := ih (j + 1) k hk hne'
      have hidx : j + (k + 1) = (j + 1) + k := by omega
      show normalizeFrame (j + (k + 1)) (load_table (rest.get ⟨k, hk⟩)).1 ∈
        (buildFrames j (f :: rest)).1
      rw [hidx]
      cases hemp : ((load_table f).1).isEmpty
      · simp only [buildFrames, hemp, Bool.false_eq_true, if_false]
        exact List.mem_cons_of_mem _ hmem
      · simpa [buildFrames, hemp] using hmem

/-- C9: the contractor index used for a surviving frame is the file's
1-based position among all uploads — empty or failed earlier uploads still
advance the counter, so they leave a numbering gap. -/
theorem C9_contractor_index_counts_all_uploads (files : List UpFile) (i : Nat)
    (h : i < files.length)
    (hne : ((load_table (files.get ⟨i, h⟩)).1).isEmpty = false) :
    normalizeFrame (i + 1) (load_table (files.get ⟨i, h⟩)).1 ∈
      (buildFrames 1 files).1 := by
  have hm := buildFrames_mem files 1 i h hne
  rwa [Nat.add_comm] at hm

/-- A failing upload followed by a valid one. -/
def c9files : List UpFile :=
  [{ name := "bad.csv", parse := Except.error "nope" },
   { name := "good.csv",
     parse := Except.ok { header := ["ITEM", "RATE"]
                          rows := [[Cell.str "1", Cell.num 5]] } }]

/-- C9, witness: the file at position 2 (after a failed upload) is tagged
with contractor index 2, not renumbered to 1. -/
theorem C9_contractor_index_counts_all_uploads_witness :
    ((load_table (c9files.get ⟨1, by decide⟩)).1).isEmpty = false ∧
    normalizeFrame 2 (load_table (c9files.get ⟨1, by decide⟩)).1 ∈
      (buildFrames 1 c9files).1 :=
  ⟨by decide,
   C9_contractor_index_counts_all_uploads c9files 1 (by decide) (by decide)⟩

/-- The deduplication loop emits exactly one label per input label. -/
theorem makeUniqueGo_length :
    ∀ (h : List String) (seen : List (String × Nat)),
      (makeUniqueGo h seen).length = h.length := by
  intro h
  induction h with
  | nil => intro seen; rfl
  | cons c rest ih =>
    intro seen
    unfold makeUniqueGo
    cases hlook : seen.lookup c <;> simp [ih]

/-- C10: `make_columns_unique` rewrites only the column labels — column
count, row count, and every row of cells are unchanged. -/
theorem C10_relabel_only (df : Table) :
    (make_columns_unique df).nCols = df.nCols ∧
    (make_columns_unique df).nRows = df.nRows ∧
    (make_columns_unique df).rows = df.rows := by
  refine ⟨?_, rfl, rfl⟩
  show (makeUniqueLabels df.header).length = df.header.length
  exact makeUniqueGo_length df.header []

/-! ### Claims C3, C4: the column normalizer -/

/-- Characterization of the fuzzy loop: a label is renamed to "RATE"
exactly when it contains "rate" case-insensitively and occurs in the list
of labels being iterated over. -/
theorem fuzzyLoop_eq :
    ∀ (cs h : List String),
      fuzzyLoop cs h =
        h.map (fun x => if substrRate x = true ∧ x ∈ cs then "RATE" else x) := by
  intro cs
  induction cs with
  | nil =>
    intro h
    unfold fuzzyLoop
    symm
    calc h.map (fun x => if substrRate x = true ∧ x ∈ ([] : List String)
            then "RATE" else x)
        = h.map id := List.map_congr_left (fun x _ => by simp)
      _ = h := List.map_id h
  | cons c cs ih =>
    intro h
    unfold fuzzyLoop
    by_cases hc : substrRate c = true
    · rw [if_pos hc, ih]
      unfold renameAll
      rw [List.map_map]
      apply List.map_congr_left
      intro x _
      simp only [Function.comp]
      by_cases hxc : x = c
      · subst hxc
        rw [if_pos rfl]
        have hr : substrRate "RATE" = true := by decide
        by_cases hmem : "RATE" ∈ cs
        · simp [hr, hmem, hc]
        · simp [hr, hmem, hc]
      · rw [if_neg hxc]
        by_cases hsx : substrRate x = true
        · by_cases hxm : x ∈ cs
          · simp [hsx, hxm, List.mem_cons, hxc]
          · simp [hsx, hxm, List.mem_cons, hxc]
        · simp [hsx]
    · rw [if_neg hc, ih]
      apply List.map_congr_left
      intro x _
      by_cases hxc : x = c
      · subst hxc
        simp [hc]
      · by_cases hsx : substrRate x = true
        · by_cases hxm : x ∈ cs
          · simp [hsx, hxm, List.mem_cons, hxc]
          · simp [hsx, hxm, List.mem_cons, hxc]
        · simp [hsx]

/-- When no column is exactly "RATE", the fuzzy scan maps every label
containing "rate" case-insensitively to "RATE" and keeps the others. -/
theorem fuzzyRate_eq (h : List String) (hnr : "RATE" ∉ h) :
    fuzzyRate h = h.map (fun c => if substrRate c = true then "RATE" else c) := by
  unfold fuzzyRate
  rw [if_neg hnr, fuzzyLoop_eq]
  apply List.map_congr_left
  intro x hx
  by_cases hsx : substrRate x = true <;> simp [hsx, hx]

/-- C3, counterexample: with columns "Rate" and "Unit rate" (no exact
"RATE"), the scan renames BOTH matches, so the second matching column does
not keep its original name as the claim asserts. -/
theorem C3_counterexample :
    fuzzyRate ["Rate", "Unit rate"] = ["RATE", "RATE"] ∧
    (fuzzyRate ["Rate", "Unit rate"]).getD 1 "" ≠ "Unit rate" := by
  decide

/-- C3 (amended): when no column is exactly named "RATE", the scan renames
EVERY column whose name contains "rate" case-insensitively to "RATE"
(several renamings can occur, producing duplicate "RATE" labels);
non-matching columns keep their names. -/
theorem C3_fuzzy_renames_every_match (h : List String) (hnr : "RATE" ∉ h) :
    fuzzyRate h = h.map (fun c => if substrRate c = true then "RATE" else c) :=
  fuzzyRate_eq h hnr

/-- C3, witness: the amended rename behaviour on a concrete header. -/
theorem C3_fuzzy_renames_every_match_witness :
    "RATE" ∉ (["ITEM", "Rate", "Unit rate"] : List String) ∧
    fuzzyRate ["ITEM", "Rate", "Unit rate"] =
      (["ITEM", "Rate", "Unit rate"] : List String).map
        (fun c => if substrRate c = true then "RATE" else c) :=
  ⟨by decide, C3_fuzzy_renames_every_match ["ITEM", "Rate", "Unit rate"] (by decide)⟩

/-- Reading a list with a default at an in-range position. -/
theorem getD_of_lt {α : Type} (l : List α) (j : Nat) (d : α) (hj : j < l.length) :
    l.getD j d = l[j] := by
  rw [List.getD_eq_getElem?_getD, List.getElem?_eq_getElem hj]
  rfl

/-- A substring of the right part occurs in the whole concatenation. -/
theorem strHasSub_append_right (p l r : List Char) (h : strHasSub p r = true) :
    strHasSub p (l ++ r) = true := by
  induction l with
  | nil => exact h
  | cons c cs ih =>
    show (strStartsWith p (c :: (cs ++ r)) || strHasSub p (cs ++ r)) = true
    rw [ih]
    exact Bool.or_true _

/-- Any label extended with the "_RATE" suffix contains "rate"
case-insensitively. -/
theorem substrRate_suffix_RATE (x : String) : substrRate (x ++ "_RATE") = true := by
  unfold substrRate lowerStr
  rw [String.data_append, List.map_append]
  exact strHasSub_append_right _ _ _ (by decide)

/-- Lookup of "RATE" in the rename map, when present. -/
theorem lookup_rate (i : Nat) (h : List String) (hR : "RATE" ∈ h) :
    (buildRenameMap i h).lookup "RATE" = some (normalize_name i ++ "_RATE") := by
  unfold buildRenameMap
  by_cases hA : "AMOUNT" ∈ h <;> simp [hR, hA, List.lookup]

/-- Lookup of "AMOUNT" in the rename map, when present. -/
theorem lookup_amount (i : Nat) (h : List String) (hA : "AMOUNT" ∈ h) :
    (buildRenameMap i h).lookup "AMOUNT" = some (normalize_name i ++ "_AMOUNT") := by
  unfold buildRenameMap
  by_cases hR : "RATE" ∈ h <;> simp [hR, hA, List.lookup]

/-- The AMOUNT tag is neither "RATE" nor the RATE tag. -/
theorem amount_tag_ne (i : Nat) :
    normalize_name i ++ "_AMOUNT" ≠ "RATE" ∧
    normalize_name i ++ "_AMOUNT" ≠ normalize_name i ++ "_RATE" := by
  constructor
  · intro heq
    have := congrArg String.length heq
    rw [String.length_append] at this
    have h7 : ("_AMOUNT" : String).length = 7 := rfl
    have h4 : ("RATE" : String).length = 4 := rfl
    omega
  · intro heq
    have := congrArg String.length heq
    rw [String.length_append, String.length_append] at this
    have h7 : ("_AMOUNT" : String).length = 7 := rfl
    have h5 : ("_RATE" : String).length = 5 := rfl
    omega

/-- C4: on a header whose only "rate"-like column is Rate/rate/RATE/RATE_USD,
normalization renames that column to `Contractor_i_RATE`; a column exactly
named AMOUNT becomes `Contractor_i_AMOUNT`; and a header with no column
containing "rate" case-insensitively ends up with no RATE-derived column. -/
theorem C4_normalizer_tags (i : Nat) (h : List String) :
    (∀ col j, ∀ hj : j < h.length,
       col ∈ (["Rate", "rate", "RATE", "RATE_USD"] : List String) →
       (∀ c ∈ h, substrRate c = true → c = col) →
       h.getD j "" = col →
       (normalizeHeader i h).getD j "" = normalize_name i ++ "_RATE") ∧
    (∀ j, ∀ hj : j < h.length, h.getD j "" = "AMOUNT" →
       (normalizeHeader i h).getD j "" = normalize_name i ++ "_AMOUNT") ∧
    ((∀ c ∈ h, substrRate c = false) →
       ∀ c ∈ normalizeHeader i h,
         c ≠ "RATE" ∧ c ≠ normalize_name i ++ "_RATE") := by
  refine ⟨?_, ?_, ?_⟩
  · intro col j hj hcol4 honly hget
    have hsubcol : substrRate col = true := by
      simp only [List.mem_cons, List.not_mem_nil, or_false] at hcol4
      rcases hcol4 with rfl | rfl | rfl | rfl <;> decide
    rw [getD_of_lt h j "" hj] at hget
    have hmem : col ∈ h := hget ▸ List.getElem_mem hj
    by_cases hcolR : col = "RATE"
    · subst hcolR
      have hfz : fuzzyRate h = h := by
        unfold fuzzyRate
        rw [if_pos hmem]
      show (applyRename (buildRenameMap i (fuzzyRate h)) (fuzzyRate h)).getD j "" = _
      rw [hfz]
      unfold applyRename
      rw [getD_of_lt _ j "" (by simpa using hj), List.getElem_map, hget,
        lookup_rate i h hmem]
      rfl
    · have hnr : "RATE" ∉ h := by
        intro hmemR
        exact hcolR (honly "RATE" hmemR (by decide)).symm
      have hfz := fuzzyRate_eq h hnr
      have hlen : (fuzzyRate h).length = h.length := by rw [hfz, List.length_map]
      have hj1 : j < (fuzzyRate h).length := by omega
      have hj2 : j < (h.map (fun c => if substrRate c = true then "RATE" else c)).length := by
        rw [List.length_map]
        exact hj
      have hat : (fuzzyRate h)[j] = "RATE" := by
        have hcast : (fuzzyRate h)[j] =
            (h.map (fun c => if substrRate c = true then "RATE" else c))[j] := by
          congr 1
        rw [hcast, List.getElem_map, hget, if_pos hsubcol]
      have hmemR : "RATE" ∈ fuzzyRate h := hat ▸ List.getElem_mem hj1
      show (applyRename (buildRenameMap i (fuzzyRate h)) (fuzzyRate h)).getD j "" = _
      unfold applyRename
      rw [getD_of_lt _ j "" (by rw [List.length_map]; omega), List.getElem_map, hat,
        lookup_rate i (fuzzyRate h) hmemR]
      rfl
  · intro j hj hget
    rw [getD_of_lt h j "" hj] at hget
    have hmemA : "AMOUNT" ∈ h := hget ▸ List.getElem_mem hj
    have hsubA : substrRate "AMOUNT" = false := by decide
    by_cases hR : "RATE" ∈ h
    · have hfz : fuzzyRate h = h := by
        unfold fuzzyRate
        rw [if_pos hR]
      show (applyRename (buildRenameMap i (fuzzyRate h)) (fuzzyRate h)).getD j "" = _
      rw [hfz]
      unfold applyRename
      rw [getD_of_lt _ j "" (by simpa using hj), List.getElem_map, hget,
        lookup_amount i h hmemA]
      rfl
    · have hfz := fuzzyRate_eq h hR
      have hlen : (fuzzyRate h).length = h.length := by rw [hfz, List.length_map]
      have hj1 : j < (fuzzyRate h).length := by omega
      have hj2 : j < (h.map (fun c => if substrRate c = true then "RATE" else c)).length := by
        rw [List.length_map]
        exact hj
      have hat : (fuzzyRate h)[j] = "AMOUNT" := by
        have hcast : (fuzzyRate h)[j] =
            (h.map (fun c => if substrRate c = true then "RATE" else c))[j] := by
          congr 1
        rw [hcast, List.getElem_map, hget, if_neg (by simp [hsubA])]
      have hmemA2 : "AMOUNT" ∈ fuzzyRate h := hat ▸ List.getElem_mem hj1
      show (applyRename (buildRenameMap i (fuzzyRate h)) (fuzzyRate h)).getD j "" = _
      unfold applyRename
      rw [getD_of_lt _ j "" (by rw [List.length_map]; omega), List.getElem_map, hat,
        lookup_amount i (fuzzyRate h) hmemA2]
      rfl
  · intro hall c hc
    have hnr : "RATE" ∉ h := by
      intro hmemR
      have := hall "RATE" hmemR
      exact absurd this (by decide)
    have hfz : fuzzyRate h = h := by
      rw [fuzzyRate_eq h hnr]
      calc h.map (fun c => if substrRate c = true then "RATE" else c)
          = h.map id := List.map_congr_left (fun x hx => by simp [hall x hx])
        _ = h := List.map_id h
    rw [show normalizeHeader i h =
      applyRename (buildRenameMap i (fuzzyRate h)) (fuzzyRate h) from rfl, hfz] at hc
    unfold applyRename at hc
    rcases List.mem_map.mp hc with ⟨c0, hc0, hceq⟩
    have hc0sub := hall c0 hc0
    have hmap : buildRenameMap i h =
        (if "AMOUNT" ∈ h then [("AMOUNT", normalize_name i ++ "_AMOUNT")] else []) := by
      unfold buildRenameMap
      rw [if_neg hnr, List.nil_append]
    by_cases hA : "AMOUNT" ∈ h
    · rw [hmap, if_pos hA] at hceq
      by_cases hcA : c0 = "AMOUNT"
      · subst hcA
        simp only [List.lookup] at hceq
        rw [show (("AMOUNT" == "AMOUNT") = true) from rfl] at hceq
        simp at hceq
        subst hceq
        exact amount_tag_ne i
      · have hlk : ([("AMOUNT", normalize_name i ++ "_AMOUNT")].lookup c0) = none := by
          simp only [List.lookup]
          rw [beq_eq_false_iff_ne.mpr hcA]
        rw [hlk, Option.getD_none] at hceq
        subst hceq
        constructor
        · intro heq
          rw [heq] at hc0sub
          exact absurd hc0sub (by decide)
        · intro heq
          rw [heq, substrRate_suffix_RATE] at hc0sub
          exact Bool.noConfusion hc0sub
    · rw [hmap, if_neg hA] at hceq
      simp only [List.lookup_nil, Option.getD_none] at hceq
      subst hceq
      constructor
      · intro heq
        rw [heq] at hc0sub
        exact absurd hc0sub (by decide)
      · intro heq
        rw [heq, substrRate_suffix_RATE] at hc0sub
        exact Bool.noConfusion hc0sub

/-- C4, witness: the three normalizer behaviours on concrete headers. -/
theorem C4_normalizer_tags_witness :
    (normalizeHeader 2 ["ITEM", "RATE_USD", "AMOUNT"]).getD 1 "" =
      normalize_name 2 ++ "_RATE" ∧
    (normalizeHeader 2 ["ITEM", "RATE_USD", "AMOUNT"]).getD 2 "" =
      normalize_name 2 ++ "_AMOUNT" ∧
    (∀ c ∈ normalizeHeader 2 ["ITEM", "QTY"],
      c ≠ "RATE" ∧ c ≠ normalize_name 2 ++ "_RATE") :=
  ⟨(C4_normalizer_tags 2 ["ITEM", "RATE_USD", "AMOUNT"]).1 "RATE_USD" 1 (by decide)
      (by decide) (by decide) (by decide),
   (C4_normalizer_tags 2 ["ITEM", "RATE_USD", "AMOUNT"]).2.1 2 (by decide) (by decide),
   (C4_normalizer_tags 2 ["ITEM", "QTY"]).2.2 (by decide)⟩

/-! ### Claim C5: the deduplicator -/

/-- Decimal value of a digit character. -/
def decDigit (c : Char) : Nat := c.toNat - 48

/-- Decimal value of a character list read left to right. -/
def decVal (l : List Char) : Nat := l.foldl (fun a c => a * 10 + decDigit c) 0

/-- The digit accumulator of `Nat.toDigitsCore` only ever prepends. -/
theorem toDigitsCore_acc (fuel : Nat) :
    ∀ (n : Nat) (ds : List Char),
      Nat.toDigitsCore 10 fuel n ds = Nat.toDigitsCore 10 fuel n [] ++ ds := by
  induction fuel with
  | zero => intro n ds; rfl
  | succ fuel ih =>
    intro n ds
    unfold Nat.toDigitsCore
    by_cases h0 : n / 10 = 0
    · rw [if_pos h0, if_pos h0]
      rfl
    · rw [if_neg h0, if_neg h0, ih (n / 10) [Nat.digitChar (n % 10)],
        ih (n / 10) (Nat.digitChar (n % 10) :: ds)]
      rw [List.append_assoc]
      rfl

/-- With enough fuel, the amount of fuel does not matter. -/
theorem toDigitsCore_fuel :
    ∀ (n fuel fuel' : Nat) (ds : List Char), n < fuel → n < fuel' →
      Nat.toDigitsCore 10 fuel n ds = Nat.toDigitsCore 10 fuel' n ds := by
  intro n
  induction n using Nat.strong_induction_on with
  | _ n ih =>
    intro fuel fuel' ds hf hf'
    match fuel, fuel' with
    | f + 1, g + 1 =>
      unfold Nat.toDigitsCore
      by_cases h0 : n / 10 = 0
      · rw [if_pos h0, if_pos h0]
      · rw [if_neg h0, if_neg h0]
        have hlt : n / 10 < n := Nat.div_lt_self (Nat.pos_of_ne_zero (by
          intro hn; exact h0 (by rw [hn]))) (by omega)
        exact ih (n / 10) hlt f g _ (by omega) (by omega)

/-- Decimal digit characters decode back to their values. -/
theorem decDigit_digitChar : ∀ m, m < 10 → decDigit (Nat.digitChar m) = m := by
  decide

/-- The decimal parse of `Nat.toDigits 10` is a left inverse. -/
theorem decVal_toDigits : ∀ n : Nat, decVal (Nat.toDigits 10 n) = n := by
  intro n
  induction n using Nat.strong_induction_on with
  | _ n ih =>
    unfold Nat.toDigits Nat.toDigitsCore
    by_cases h0 : n / 10 = 0
    · rw [if_pos h0]
      have hlt : n < 10 := by omega
      have hmod : n % 10 = n := Nat.mod_eq_of_lt hlt
      show decVal [Nat.digitChar (n % 10)] = n
      unfold decVal
      rw [List.foldl_cons, List.foldl_nil, hmod]
      have := decDigit_digitChar n hlt
      omega
    · rw [if_neg h0]
      have hpos : 0 < n := Nat.pos_of_ne_zero (by
        intro hn; exact h0 (by rw [hn]))
      have hlt : n / 10 < n := Nat.div_lt_self hpos (by omega)
      rw [toDigitsCore_acc n (n / 10) [Nat.digitChar (n % 10)]]
      rw [toDigitsCore_fuel (n / 10) n (n / 10 + 1) [] (by omega) (by omega)]
      show decVal (Nat.toDigits 10 (n / 10) ++ [Nat.digitChar (n % 10)]) = n
      unfold decVal
      rw [List.foldl_append]
      have hih := ih (n / 10) hlt
      unfold decVal at hih
      rw [hih, List.foldl_cons, List.foldl_nil]
      have hm := decDigit_digitChar (n % 10) (Nat.mod_lt n (by omega))
      have := Nat.div_add_mod n 10
      omega

/-- Two naturals with the same decimal representation are equal. -/
theorem nat_repr_inj {m n : Nat} (h : Nat.repr m = Nat.repr n) : m = n := by
  have hdata : (Nat.toDigits 10 m) = (Nat.toDigits 10 n) := by
    have := congrArg String.data h
    simpa [Nat.repr, List.asString] using this
  have hm := decVal_toDigits m
  have hn := decVal_toDigits n
  rw [← hm, ← hn, hdata]

/-- Output label for one column given the prefix of already-processed
labels: kept as-is on first occurrence, suffixed with the occurrence count
otherwise. -/
def outLabel (prev : List String) (c : String) : String :=
  if prev.count c = 0 then c else c ++ "_" ++ toString (prev.count c)

/-- Positional specification of the deduplication loop, carrying the
processed prefix. -/
def specGo : List String → List String → List String
  | _, [] => []
  | prev, c :: cs => outLabel prev c :: specGo (prev ++ [c]) cs

/-- Updating an existing key of the `seen` dict and reading it back. -/
theorem lookup_setv_self (seen : List (String × Nat)) (c : String) (v : Nat)
    (h : (seen.lookup c).isSome = true) : (setv seen c v).lookup c = some v := by
  induction seen with
  | nil => simp [List.lookup] at h
  | cons p rest ih =>
    rcases p with ⟨k, w⟩
    by_cases hkc : k = c
    · subst hkc
      unfold setv
      rw [if_pos rfl]
      simp [List.lookup]
    · have hck : (c == k) = false := beq_eq_false_iff_ne.mpr (fun hh => hkc hh.symm)
      unfold setv
      rw [if_neg hkc]
      simp only [List.lookup, hck] at h ⊢
      exact ih h

/-- Updating one key of the `seen` dict leaves the other keys unread. -/
theorem lookup_setv_other (seen : List (String × Nat)) (c d : String) (v : Nat)
    (hdc : d ≠ c) : (setv seen c v).lookup d = seen.lookup d := by
  induction seen with
  | nil => rfl
  | cons p rest ih =>
    rcases p with ⟨k, w⟩
    by_cases hkc : k = c
    · subst hkc
      have hdk : (d == k) = false := beq_eq_false_iff_ne.mpr hdc
      unfold setv
      rw [if_pos rfl]
      simp only [List.lookup, hdk]
      exact ih
    · unfold setv
      rw [if_neg hkc]
      simp only [List.lookup]
      cases hdk : (d == k) <;> simp [hdk, ih]

/-- The dict `seen` stores, for each label, one less than that label's
count in the processed prefix. -/
def seenInv (prev : List String) (seen : List (String × Nat)) : Prop :=
  ∀ c : String, seen.lookup c =
    if prev.count c = 0 then none else some (prev.count c - 1)

/-- The dict-based loop agrees with the positional specification. -/
theorem makeUniqueGo_eq_specGo :
    ∀ (rest prev : List String) (seen : List (String × Nat)),
      seenInv prev seen → makeUniqueGo rest seen = specGo prev rest := by
  intro rest
  induction rest with
  | nil => intro prev seen _; rfl
  | cons c cs ih =>
    intro prev seen hinv
    have hc := hinv c
    unfold makeUniqueGo specGo
    by_cases h0 : prev.count c = 0
    · rw [if_pos h0] at hc
      rw [hc]
      show c :: makeUniqueGo cs ((c, 0) :: seen) =
        outLabel prev c :: specGo (prev ++ [c]) cs
      have hout : outLabel prev c = c := by
        unfold outLabel
        rw [if_pos h0]
      rw [hout]
      congr 1
      apply ih (prev ++ [c]) ((c, 0) :: seen)
      intro d
      by_cases hdc : d = c
      · subst hdc
        have hcnt : (prev ++ [d]).count d = 1 := by
          rw [List.count_append, h0]
          simp
        rw [hcnt]
        simp [List.lookup]
      · have hdk : (d == c) = false := beq_eq_false_iff_ne.mpr hdc
        have hcd : (c == d) = false := beq_eq_false_iff_ne.mpr (fun hh => hdc hh.symm)
        have hcnt : (prev ++ [c]).count d = prev.count d := by
          rw [List.count_append, List.count_cons, List.count_nil, hcd]
          simp
        rw [hcnt]
        simp only [List.lookup, hdk]
        exact hinv d
    · rw [if_neg h0] at hc
      rw [hc]
      show (c ++ "_" ++ toString (prev.count c - 1 + 1)) ::
          makeUniqueGo cs (setv seen c (prev.count c - 1 + 1)) =
        outLabel prev c :: specGo (prev ++ [c]) cs
      have hk1 : prev.count c - 1 + 1 = prev.count c := by omega
      rw [hk1]
      have hout : outLabel prev c = c ++ "_" ++ toString (prev.count c) := by
        unfold outLabel
        rw [if_neg h0]
      rw [hout]
      congr 1
      apply ih (prev ++ [c]) (setv seen c (prev.count c))
      intro d
      by_cases hdc : d = c
      · subst hdc
        have hsome : (seen.lookup d).isSome = true := by
          rw [hc]
          rfl
        rw [lookup_setv_self seen d (prev.count d) hsome]
        have hcnt : (prev ++ [d]).count d = prev.count d + 1 := by
          rw [List.count_append]
          simp
        rw [hcnt]
        rw [if_neg (by omega)]
        simp
      · rw [lookup_setv_other seen c d (prev.count c) hdc]
        have hcd : (c == d) = false := beq_eq_false_iff_ne.mpr (fun hh => hdc hh.symm)
        have hcnt : (prev ++ [c]).count d = prev.count d := by
          rw [List.count_append, List.count_cons, List.count_nil, hcd]
          simp
        rw [hcnt]
        exact hinv d

/-- The deduplicator equals its positional specification. -/
theorem makeUniqueLabels_eq_spec (h : List String) :
    makeUniqueLabels h = specGo [] h := by
  apply makeUniqueGo_eq_specGo h [] []
  intro c
  simp [List.lookup]

/-- The positional specification preserves length. -/
theorem specGo_length : ∀ (cs prev : List String), (specGo prev cs).length = cs.length := by
  intro cs
  induction cs with
  | nil => intro prev; rfl
  | cons c cs ih => intro prev; show _ + 1 = _ + 1; rw [ih]

/-- Per-position value of the positional specification. -/
theorem specGo_getD :
    ∀ (cs prev : List String) (j : Nat), j < cs.length →
      (specGo prev cs).getD j "" = outLabel (prev ++ cs.take j) (cs.getD j "") := by
  intro cs
  induction cs with
  | nil => intro prev j hj; exact absurd hj (by simp)
  | cons c cs ih =>
    intro prev j hj
    cases j with
    | zero =>
      show outLabel prev c = outLabel (prev ++ []) c
      rw [List.append_nil]
    | succ k =>
      have hk : k < cs.length := by simpa using hj
      show (specGo (prev ++ [c]) cs).getD k "" =
        outLabel (prev ++ (c :: cs.take k)) (cs.getD k "")
      rw [ih (prev ++ [c]) k hk, List.append_assoc]
      rfl

/-- Counting within a longer prefix only grows. -/
theorem count_take_le (a : String) (l : List String) (i j : Nat) (hij : i ≤ j) :
    (l.take i).count a ≤ (l.take j).count a := by
  have h1 : (l.take j).take i = l.take i := by
    rw [List.take_take, Nat.min_eq_left hij]
  have h2 := List.take_append_drop i (l.take j)
  rw [h1] at h2
  rw [← h2, List.count_append]
  omega

/-- Extending the prefix past position `j` counts that position's label
once more. -/
theorem count_take_succ_self (l : List String) (j : Nat) (hj : j < l.length) :
    (l.take (j + 1)).count (l.getD j "") = (l.take j).count (l.getD j "") + 1 := by
  rw [getD_of_lt l j "" hj, List.take_succ, List.getElem?_eq_getElem hj,
    List.count_append]
  simp

/-- A character list starts with itself. -/
theorem strStartsWith_self_append (p r : List Char) :
    strStartsWith p (p ++ r) = true := by
  induction p with
  | nil => rfl
  | cons c cs ih =>
    show (c == c && strStartsWith cs (cs ++ r)) = true
    rw [ih]
    simp

/-- In a family with no label extending another by an underscore, a label
cannot equal another label followed by an underscore and a suffix. -/
theorem hsf_violation {h : List String}
    (hsf : ∀ c ∈ h, ∀ d ∈ h, strStartsWith (d ++ "_").data c.data = false)
    {X Y : String} (hX : X ∈ h) (hY : Y ∈ h) (s : String)
    (heq : X = Y ++ "_" ++ s) : False := by
  have h1 := hsf X hX Y hY
  have h2 : strStartsWith (Y ++ "_").data X.data = true := by
    rw [heq, String.data_append]
    exact strStartsWith_self_append _ _
  rw [h1] at h2
  exact Bool.noConfusion h2

/-- Character-level form of an underscore-suffixed string. -/
theorem data_underscore (X s : String) :
    (X ++ "_" ++ s).data = X.data ++ '_' :: s.data := by
  rw [String.data_append, String.data_append, List.append_assoc]
  rfl

/-- If two underscore-suffixed lists agree and the left base is shorter,
the longer base extends the shorter by an underscore. -/
theorem base_extension {a b s1 s2 : List Char}
    (heq : a ++ '_' :: s1 = b ++ '_' :: s2) (hlen : a.length < b.length) :
    ∃ t : List Char, b = a ++ '_' :: t := by
  have htake := congrArg (List.take b.length) heq
  rw [List.take_append_eq_append_take, List.take_append_eq_append_take] at htake
  have hx : a.take b.length = a := List.take_of_length_le (by omega)
  have hy : b.take b.length = b := List.take_length b
  rw [hx, hy, Nat.sub_self, List.take_zero, List.append_nil] at htake
  obtain ⟨k, hk⟩ : ∃ k, b.length - a.length = k + 1 :=
    ⟨b.length - a.length - 1, by omega⟩
  rw [hk, List.take_succ_cons] at htake
  exact ⟨s1.take k, htake.symm⟩

/-- Positional value of the deduplicated header. -/
theorem makeUniqueLabels_getD (h : List String) (j : Nat) (hj : j < h.length) :
    (makeUniqueLabels h).getD j "" = outLabel (h.take j) (h.getD j "") := by
  rw [makeUniqueLabels_eq_spec]
  have h1 := specGo_getD h [] j hj
  rw [List.nil_append] at h1
  exact h1

/-- Distinct positions of a suffix-free header get distinct output labels. -/
theorem outLabel_ne (h : List String)
    (hsf : ∀ c ∈ h, ∀ d ∈ h, strStartsWith (d ++ "_").data c.data = false) :
    ∀ a b, a < h.length → b < h.length → a < b →
      outLabel (h.take a) (h.getD a "") ≠ outLabel (h.take b) (h.getD b "") := by
  intro a b ha hb hab heq
  have hXmem : h.getD a "" ∈ h := by
    rw [getD_of_lt h a "" ha]
    exact List.getElem_mem ha
  have hYmem : h.getD b "" ∈ h := by
    rw [getD_of_lt h b "" hb]
    exact List.getElem_mem hb
  unfold outLabel at heq
  by_cases h0a : (h.take a).count (h.getD a "") = 0 <;>
    by_cases h0b : (h.take b).count (h.getD b "") = 0
  · rw [if_pos h0a, if_pos h0b] at heq
    have h1 := count_take_succ_self h a ha
    have h2 := count_take_le (h.getD a "") h (a + 1) b (by omega)
    rw [heq] at h1 h2
    omega
  · rw [if_pos h0a, if_neg h0b] at heq
    exact hsf_violation hsf hXmem hYmem _ heq
  · rw [if_neg h0a, if_pos h0b] at heq
    exact hsf_violation hsf hYmem hXmem _ heq.symm
  · rw [if_neg h0a, if_neg h0b] at heq
    have hdata := congrArg String.data heq
    rw [data_underscore, data_underscore] at hdata
    by_cases hXY : h.getD a "" = h.getD b ""
    · rw [← hXY] at hdata
      have hs := List.append_cancel_left hdata
      injection hs with hhead htail
      have hseq : toString ((h.take a).count (h.getD a "")) =
          toString ((h.take b).count (h.getD a "")) := String.ext htail
      have hinj : (h.take a).count (h.getD a "") = (h.take b).count (h.getD a "") :=
        nat_repr_inj hseq
      have h1 := count_take_succ_self h a ha
      have h2 := count_take_le (h.getD a "") h (a + 1) b (by omega)
      omega
    · rcases Nat.lt_trichotomy (h.getD a "").data.length (h.getD b "").data.length with
        hlt | heqlen | hgt
      · rcases base_extension hdata hlt with ⟨t, ht⟩
        have hY : h.getD b "" = h.getD a "" ++ "_" ++ String.mk t := String.ext (by
          rw [ht, data_underscore])
        exact hsf_violation hsf hYmem hXmem (String.mk t) hY
      · rcases List.append_inj hdata heqlen with ⟨hxy, _⟩
        exact hXY (String.ext hxy)
      · rcases base_extension hdata.symm hgt with ⟨t, ht⟩
        have hX : h.getD a "" = h.getD b "" ++ "_" ++ String.mk t := String.ext (by
          rw [ht, data_underscore])
        exact hsf_violation hsf hXmem hYmem (String.mk t) hX

/-- C5, counterexample: on labels ["X", "X_1", "X"] the deduplicator renames
the second "X" to "X_1", colliding with the pre-existing label "X_1" — the
output labels are not pairwise distinct. -/
theorem C5_counterexample :
    makeUniqueLabels ["X", "X_1", "X"] = ["X", "X_1", "X_1"] ∧
    ¬ (makeUniqueLabels ["X", "X_1", "X"]).Nodup := by
  decide

/-- C5 (amended): `make_columns_unique` keeps the first occurrence of every
label and renames the k-th subsequent occurrence of X to X_k with a
per-label counter (captured by `outLabel` over the processed prefix); the
output labels are pairwise distinct PROVIDED no input label equals another
input label followed by an underscore and a further suffix (without that
proviso a generated X_k can collide with an original label, as the
counterexample shows). -/
theorem C5_dedup_labels (h : List String) :
    ((∀ c ∈ h, ∀ d ∈ h, strStartsWith (d ++ "_").data c.data = false) →
      (makeUniqueLabels h).Nodup) ∧
    (makeUniqueLabels h).length = h.length ∧
    (∀ j, j < h.length →
      (makeUniqueLabels h).getD j "" = outLabel (h.take j) (h.getD j "")) := by
  have hlen : (makeUniqueLabels h).length = h.length := by
    rw [makeUniqueLabels_eq_spec]
    exact specGo_length h []
  refine ⟨?_, hlen, fun j hj => makeUniqueLabels_getD h j hj⟩
  intro hsf
  rw [List.nodup_iff_injective_get]
  intro x y hxy
  have hx : x.1 < h.length := by rw [← hlen]; exact x.2
  have hy : y.1 < h.length := by rw [← hlen]; exact y.2
  have hgx : (makeUniqueLabels h).get x = outLabel (h.take x.1) (h.getD x.1 "") := by
    rw [List.get_eq_getElem, ← getD_of_lt _ x.1 "" x.2]
    exact makeUniqueLabels_getD h x.1 hx
  have hgy : (makeUniqueLabels h).get y = outLabel (h.take y.1) (h.getD y.1 "") := by
    rw [List.get_eq_getElem, ← getD_of_lt _ y.1 "" y.2]
    exact makeUniqueLabels_getD h y.1 hy
  rw [hgx, hgy] at hxy
  rcases Nat.lt_trichotomy x.1 y.1 with hlt | heq2 | hgt
  · exact absurd hxy (outLabel_ne h hsf x.1 y.1 hx hy hlt)
  · exact Fin.ext heq2
  · exact absurd hxy.symm (outLabel_ne h hsf y.1 x.1 hy hx hgt)

/-- A suffix-free header with one label occurring three times. -/
def c5h : List String := ["ITEM", "RATE", "RATE", "RATE"]

/-- C5, witness: on a concrete suffix-free header the outputs are distinct,
the length is preserved, and the third occurrence of "RATE" is "RATE_2". -/
theorem C5_dedup_labels_witness :
    (∀ c ∈ c5h, ∀ d ∈ c5h, strStartsWith (d ++ "_").data c.data = false) ∧
    (makeUniqueLabels c5h).Nodup ∧
    (makeUniqueLabels c5h).length = c5h.length ∧
    (makeUniqueLabels c5h).getD 3 "" = "RATE_2" :=
  ⟨by decide, (C5_dedup_labels c5h).1 (by decide), (C5_dedup_labels c5h).2.1,
   by rw [(C5_dedup_labels c5h).2.2 3 (by decide)]; decide⟩
